import Mathlib

/-
Verification of the backprop-rs scalar reverse-mode automatic differentiation
engine (src/graph.rs).

The engine stores computation nodes in an append-only arena (`Vec<VariableData>`
behind a `RefCell`); each node holds a value, an optional gradient, the indices
of its operand nodes and an operation tag.  We embed the arena shallowly as a
Lean structure holding a `List` of nodes, and every mutating Rust method
becomes a Lean function returning the updated graph (state passing).

The Rust code computes over `f64`.  We model `f64` as exact arithmetic in an
arbitrary linear ordered field `F`; the three partial primitive functions of
`f64` used by the code (`powf`, `exp`, `ln`) are supplied as parameters in a
`Prims` bundle, since they are transcendental and have no canonical executable
counterpart.  For concrete test graphs we instantiate `F := ℚ` with `powf`
restricted to the integer exponents the repository actually uses (where `f64`
arithmetic on the small test values is exact, so the rational model is
faithful).
-/

namespace Backprop

variable {F : Type} [LinearOrderedField F]

/-- Bundle of the primitive `f64` functions (`powf`, `exp`, `ln`) that the
operation catalog delegates to. -/
structure Prims (F : Type) where
  fpow : F → F → F
  fexp : F → F
  fln : F → F

/-- Operation tag of a node, mirroring `enum Op` in src/graph.rs: `Value`
(leaf), `Add`, `Mul`, `Pow(f64)`, `ReLU`, `Exp`, `Log`.  There is no
subtraction, negation or division tag. -/
inductive Op (F : Type) where
  | Value : Op F
  | Add : Op F
  | Mul : Op F
  | Pow : F → Op F
  | ReLU : Op F
  | Exp : Op F
  | Log : Op F
deriving DecidableEq

/-- One arena node, mirroring `struct VariableData`: forward value, optional
accumulated gradient, operand indices (`children`) and the operation tag. -/
structure VariableData (F : Type) where
  data : F
  grad : Option F
  children : List Nat
  op : Op F
deriving DecidableEq

/-- Default node used to total the partial `Vec` indexing of the source
(`vars[idx]` panics out of range; the claims below only touch in-range
indices). -/
def defaultVD : VariableData F := ⟨0, none, [], Op.Value⟩

/-- The arena, mirroring `struct Graph { vars: RefCell<Vec<VariableData>> }`. -/
structure Graph (F : Type) where
  vars : List (VariableData F)
deriving DecidableEq

/-- Forward formula of each operation, mirroring `Op::forward`.  `Op::Value`
is `unimplemented!()` in the source (never called: leaves are created
directly); we return `0` there. -/
def Op.forward (P : Prims F) : Op F → List F → F
  | Op.Add, cd => cd.getD 0 0 + cd.getD 1 0
  | Op.Mul, cd => cd.getD 0 0 * cd.getD 1 0
  | Op.Pow e, cd => P.fpow (cd.getD 0 0) e
  | Op.ReLU, cd => if cd.getD 0 0 > 0 then cd.getD 0 0 else 0
  | Op.Exp, cd => P.fexp (cd.getD 0 0)
  | Op.Log, cd => P.fln (cd.getD 0 0)
  | Op.Value, _ => 0

/-- Backward (local-gradient) formula of each operation, mirroring
`Op::backward`: given the operands' values, the node's output value and the
upstream gradient, return the contribution into each operand. -/
def Op.backward (P : Prims F) : Op F → List F → F → F → List F
  | Op.Add, _, _, out_grad => [out_grad, out_grad]
  | Op.Mul, cd, _, out_grad => [cd.getD 1 0 * out_grad, cd.getD 0 0 * out_grad]
  | Op.Pow e, cd, _, out_grad => [e * P.fpow (cd.getD 0 0) (e - 1) * out_grad]
  | Op.ReLU, _, out_data, out_grad => [if out_data > 0 then out_grad else 0]
  | Op.Exp, _, out_data, out_grad => [out_data * out_grad]
  | Op.Log, cd, _, out_grad => [out_grad / cd.getD 0 0]
  | Op.Value, _, _, _ => []

/-- Node lookup (`vars[idx]`), totalized with `defaultVD`. -/
def Graph.nth (g : Graph F) (i : Nat) : VariableData F :=
  g.vars.getD i defaultVD

/-- Value getter, mirroring `Graph::data`. -/
def Graph.dataAt (g : Graph F) (i : Nat) : F :=
  (g.nth i).data

/-- Gradient getter, mirroring `Graph::grad`. -/
def Graph.gradAt (g : Graph F) (i : Nat) : Option F :=
  (g.nth i).grad

/-- Number of nodes, mirroring `Graph::len`. -/
def Graph.len (g : Graph F) : Nat :=
  g.vars.length

/-- Leaf creation, mirroring `Graph::variable`: push a node with the given
data, no gradient, no children and tag `Value`; the returned handle index is
the old length. -/
def Graph.variable' (g : Graph F) (data : F) : Graph F × Nat :=
  (⟨g.vars ++ [⟨data, none, [], Op.Value⟩]⟩, g.vars.length)

/-- Clear the gradient field of one node (`var.grad = None`). -/
def stripGrad (v : VariableData F) : VariableData F :=
  ⟨v.data, none, v.children, v.op⟩

/-- Reset every node's gradient to absent, mirroring `Graph::zero_grad`. -/
def Graph.zero_grad (g : Graph F) : Graph F :=
  ⟨g.vars.map stripGrad⟩

/-- Remove all nodes from index `len` onwards, mirroring `Graph::truncate`
(STD `Vec::truncate` is a no-op when `len` is at least the current length). -/
def Graph.truncate (g : Graph F) (len : Nat) : Graph F :=
  ⟨g.vars.take len⟩

/-- Operation-node creation, mirroring `Graph::push_var`: read the operands'
current values, evaluate the forward formula eagerly, and append the node. -/
def Graph.push_var (P : Prims F) (g : Graph F) (children : List Nat) (op : Op F) :
    Graph F × Nat :=
  let children_data := children.map fun c => (g.nth c).data
  let data := op.forward P children_data
  (⟨g.vars ++ [⟨data, none, children, op⟩]⟩, g.vars.length)

/-- Mirrors `Graph::add_op`. -/
def Graph.add_op (P : Prims F) (g : Graph F) (a b : Nat) : Graph F × Nat :=
  g.push_var P [a, b] Op.Add

/-- Mirrors `Graph::mul_op`. -/
def Graph.mul_op (P : Prims F) (g : Graph F) (a b : Nat) : Graph F × Nat :=
  g.push_var P [a, b] Op.Mul

/-- Mirrors `Graph::pow_op`. -/
def Graph.pow_op (P : Prims F) (g : Graph F) (a : Nat) (e : F) : Graph F × Nat :=
  g.push_var P [a] (Op.Pow e)

/-- Mirrors `Graph::relu_op`. -/
def Graph.relu_op (P : Prims F) (g : Graph F) (a : Nat) : Graph F × Nat :=
  g.push_var P [a] Op.ReLU

/-- Mirrors `Graph::exp_op`. -/
def Graph.exp_op (P : Prims F) (g : Graph F) (a : Nat) : Graph F × Nat :=
  g.push_var P [a] Op.Exp

/-- Mirrors `Graph::log_op`. -/
def Graph.log_op (P : Prims F) (g : Graph F) (a : Nat) : Graph F × Nat :=
  g.push_var P [a] Op.Log

/-- Derived negation, mirroring `Graph::neg_op`: create a fresh `-1` leaf and
multiply by it. -/
def Graph.neg_op (P : Prims F) (g : Graph F) (a : Nat) : Graph F × Nat :=
  let r := g.variable' (-1)
  r.1.mul_op P a r.2

/-- Derived subtraction, mirroring `Graph::sub_op`: `a + neg(b)`. -/
def Graph.sub_op (P : Prims F) (g : Graph F) (a b : Nat) : Graph F × Nat :=
  let r := g.neg_op P b
  r.1.add_op P a r.2

/-- Derived division, mirroring `Graph::div_op`: `a * b^(-1)`. -/
def Graph.div_op (P : Prims F) (g : Graph F) (a b : Nat) : Graph F × Nat :=
  let r := g.pow_op P b (-1)
  r.1.mul_op P a r.2

/-- Add `d` into node `child`'s gradient, treating absent as `0`, mirroring
`*vars[child].grad.get_or_insert_default() += grad` in `backward_single`. -/
def Graph.addGrad (g : Graph F) (child : Nat) (d : F) : Graph F :=
  ⟨g.vars.set child
    (let v := g.vars.getD child defaultVD
     ⟨v.data, some (v.grad.getD 0 + d), v.children, v.op⟩)⟩

/-- Overwrite node `i`'s gradient field (used for seeding the root). -/
def Graph.setGrad (g : Graph F) (i : Nat) (gr : Option F) : Graph F :=
  ⟨g.vars.set i
    (let v := g.vars.getD i defaultVD
     ⟨v.data, gr, v.children, v.op⟩)⟩

/-- Mirrors `Graph::backward_single`: evaluate the node's backward formula on
its operands' values, its own value and its accumulated gradient (absent
treated as `0`), then add each resulting contribution into the corresponding
operand's gradient, in order. -/
def Graph.backward_single (P : Prims F) (g : Graph F) (a : Nat) : Graph F :=
  let node := g.nth a
  let children_data := node.children.map fun c => (g.nth c).data
  let grads := node.op.backward P children_data node.data (node.grad.getD 0)
  (node.children.zip grads).foldl (fun g' p => g'.addGrad p.1 p.2) g

/-- Mirrors the nested `build_topo` of `Graph::backward`: depth-first
post-order traversal over operand edges with a visited set, appending a node
to `topo` only after all of its children have been processed.  The source
recurses directly on node indices; we add explicit fuel, which is irrelevant
for the acyclic graphs the engine builds (operand indices are strictly
smaller than the node's own index, so fuel `v + 1` always suffices, proved
below). -/
def buildTopo (g : Graph F) : Nat → Nat → List Nat × List Nat → List Nat × List Nat
  | 0, _, st => st
  | fuel + 1, v, st =>
    if v ∈ st.2 then st
    else
      let st1 := ((g.nth v).children).foldl (fun s c => buildTopo g fuel c s) (st.1, v :: st.2)
      (st1.1 ++ [v], st1.2)

/-- Mirrors `Graph::backward`: build the topological order from the root,
seed the root's gradient with `1.0`, then run `backward_single` over the
order in reverse. -/
def Graph.backward (P : Prims F) (g : Graph F) (idx : Nat) : Graph F :=
  let topo := (buildTopo g (idx + 1) idx ([], [])).1
  let g1 := g.setGrad idx (some 1)
  topo.reverse.foldl (fun g' v => g'.backward_single P v) g1

/-- Per-edge gradient contributions of one `backward_single` call: each
operand index of node `a` paired with the value `Op::backward` computes for
it.  `backward_single` is definitionally the left fold of `addGrad` over this
list. -/
def Graph.contribs (P : Prims F) (g : Graph F) (a : Nat) : List (Nat × F) :=
  let node := g.nth a
  node.children.zip
    (node.op.backward P (node.children.map fun c => (g.nth c).data) node.data (node.grad.getD 0))

/-- Well-formedness invariant of the arena: every node's operand indices are
strictly smaller than the node's own index (the spec's acyclicity
invariant, guaranteed in the source by append-only construction). -/
abbrev Wf (g : Graph F) : Prop :=
  ∀ i < g.len, ∀ c ∈ (g.nth i).children, c < i

/-- Reachability along operand edges: `Reach g v w` holds when `w` can be
reached from `v` by repeatedly stepping from a node to one of its operands. -/
inductive Reach (g : Graph F) : Nat → Nat → Prop where
  | refl (v : Nat) : Reach g v v
  | step {v c w : Nat} : c ∈ (g.nth v).children → Reach g c w → Reach g v w

/-- Invariant of the DFS state `(topo, visited)` maintained by `build_topo`:
the accumulated order is duplicate-free, contained in the visited set, closed
under operand edges, and lists every node strictly after its operands. -/
structure TopoInv (g : Graph F) (topo visited : List Nat) : Prop where
  nodup : topo.Nodup
  sub : ∀ x ∈ topo, x ∈ visited
  closed : ∀ v ∈ topo, ∀ c ∈ (g.nth v).children, c ∈ topo
  ordered : ∀ v ∈ topo, ∀ c ∈ (g.nth v).children, topo.indexOf c < topo.indexOf v

/-- Postcondition of one recursive `build_topo` call on node `v` from state
`(topo, visited)` to state `(topo', visited')`. -/
def TopoPost (g : Graph F) (v : Nat) (topo visited topo' visited' : List Nat) : Prop :=
  TopoInv g topo' visited'
  ∧ (∃ new, topo' = topo ++ new)
  ∧ (∀ x ∈ visited, x ∈ visited')
  ∧ (∀ x ∈ visited', x ∉ topo' → x ∈ visited ∧ x ∉ topo)
  ∧ (∀ x ∈ topo', x ∈ topo ∨ Reach g v x)
  ∧ (∀ x ∈ visited', x ∈ visited ∨ Reach g v x)
  ∧ (∀ x, Reach g v x → x ∈ visited')
  ∧ v ∈ visited'

/-- One public mutating call on the store, for stating the C6 invariant:
leaf creation, operation-node creation, the three derived constructors, or
truncation. -/
inductive GOp (F : Type) where
  | leaf (d : F)
  | node (children : List Nat) (o : Op F)
  | neg (a : Nat)
  | sub (a b : Nat)
  | div (a b : Nat)
  | trunc (n : Nat)

/-- Execute one call against the store. -/
def applyGOp (P : Prims F) (g : Graph F) : GOp F → Graph F
  | GOp.leaf d => (g.variable' d).1
  | GOp.node ch o => (g.push_var P ch o).1
  | GOp.neg a => (g.neg_op P a).1
  | GOp.sub a b => (g.sub_op P a b).1
  | GOp.div a b => (g.div_op P a b).1
  | GOp.trunc n => g.truncate n

/-- Non-panicking precondition of one call: every operand handle passed in
is in range at call time (out-of-range handles make the Rust `vars[c]`
indexing panic, so no store results from such a call). -/
def validGOp (g : Graph F) : GOp F → Prop
  | GOp.leaf _ => True
  | GOp.node ch _ => ∀ c ∈ ch, c < g.len
  | GOp.neg a => a < g.len
  | GOp.sub a b => a < g.len ∧ b < g.len
  | GOp.div a b => a < g.len ∧ b < g.len
  | GOp.trunc _ => True

/-- Execute a sequence of calls left to right. -/
def applySeq (P : Prims F) (g : Graph F) (ops : List (GOp F)) : Graph F :=
  ops.foldl (applyGOp P) g

/-- Every call of the sequence satisfies its precondition in the state in
which it runs. -/
def validSeq (P : Prims F) (g : Graph F) : List (GOp F) → Prop
  | [] => True
  | o :: rest => validGOp g o ∧ validSeq P (applyGOp P g o) rest

/-- `Ext g g'` says `g'` is `g` with some nodes appended: the shape every
constructor of the engine leaves the store in. -/
def Ext (g g' : Graph F) : Prop := ∃ l, g'.vars = g.vars ++ l

/-- The maximum of the logits' current values, mirroring
`logits.iter().map(|v| v.data()).fold(f64::NEG_INFINITY, f64::max)`.  The
fold from negative infinity equals the maximum over the list when the list
is non-empty (the only case softmax supports: on an empty input the source
panics at `exps[0]`); negative infinity itself is not a value of `F`, so the
empty case returns `0`. -/
def foldMaxData (g : Graph F) (logits : List Nat) : F :=
  match logits.map g.dataAt with
  | [] => 0
  | x :: xs => xs.foldl max x

/-- Mirrors `Graph::softmax`: insert the maximum logit value as a leaf,
build `exp(x - max)` for every logit in order, sum those with `exps[1..]
.fold(exps[0], +)`, and divide each exponential by the sum.  Returns the
extended graph and the handles of the outputs. -/
def Graph.softmax (P : Prims F) (g : Graph F) (logits : List Nat) :
    Graph F × List Nat :=
  let max_val := foldMaxData g logits
  let r0 := g.variable' max_val
  let re := logits.foldl
    (fun (acc : Graph F × List Nat) x =>
      let rs := acc.1.sub_op P x r0.2
      let rexp := rs.1.exp_op P rs.2
      (rexp.1, acc.2 ++ [rexp.2]))
    (r0.1, [])
  let rsum :=
    match re.2 with
    | [] => (re.1, 0)
    | e0 :: rest => rest.foldl (fun (acc : Graph F × Nat) e => acc.1.add_op P acc.2 e) (re.1, e0)
  re.2.foldl
    (fun (acc : Graph F × List Nat) e =>
      let rd := acc.1.div_op P e rsum.2
      (rd.1, acc.2 ++ [rd.2]))
    (rsum.1, [])

/-- Pure value-level model of softmax on a list of input values, used to
state what the graph nodes built by `Graph.softmax` evaluate to. -/
def softmaxVals (P : Prims F) (xs : List F) : List F :=
  match xs with
  | [] => []
  | x0 :: rest =>
    let m := rest.foldl max x0
    let es := (x0 :: rest).map fun x => P.fexp (x + m * -1)
    let s :=
      match es with
      | [] => 0
      | e0 :: tl => tl.foldl (· + ·) e0
    es.map fun e => e * P.fpow s (-1)

/-- Rational model of `f64::powf` at the integer exponents the repository
uses (`-1.0` from `div_op`, and the exponent shifted by one in
`Op::backward`); on non-integer exponents, which no claim exercises, it
returns `0`. -/
def ratPow (a e : ℚ) : ℚ := if e.den = 1 then a ^ e.num else 0

/-- Concrete `Prims` instantiation over `ℚ` for test graphs.  `fexp` is an
arbitrary strictly positive function and `fln` an arbitrary function; the
concrete graphs below that evaluate values never contain `Exp`/`Log` nodes
except where these functions' properties are explicitly hypothesised. -/
def ratPrims : Prims ℚ := ⟨ratPow, fun x => 1 + x * x, fun x => x⟩

/-- Test graph for shared-subexpression accumulation: leaf `a = 3` at index
0, `mul(a, a)` at index 1, `add(mul(a,a), a)` at index 2 — that is,
`f(a) = a*a + a`. -/
def gC1 : Graph ℚ :=
  let s0 : Graph ℚ := ⟨[]⟩
  let r1 := s0.variable' 3
  let r2 := r1.1.mul_op ratPrims 0 0
  (r2.1.add_op ratPrims 1 0).1

/-- Test graph for derived subtraction: leaves `5` and `3`, then
`subtract(5, 3)`; the subtraction expands to indices 2 (`-1` leaf),
3 (`mul`), 4 (`add`). -/
def gSub : Graph ℚ :=
  let s0 : Graph ℚ := ⟨[]⟩
  let r1 := s0.variable' 5
  let r2 := r1.1.variable' 3
  (r2.1.sub_op ratPrims 0 1).1

/-- Test graph for derived division: leaves `6` and `2`, then
`divide(6, 2)`; the division expands to indices 2 (`pow(-1)`), 3 (`mul`). -/
def gDiv : Graph ℚ :=
  let s0 : Graph ℚ := ⟨[]⟩
  let r1 := s0.variable' 6
  let r2 := r1.1.variable' 2
  (r2.1.div_op ratPrims 0 1).1

/-- Lean elaborates some rewritten terms with a nonstandard `OfNat ℕ 1`
instance; this `rfl` bridge lets `simp` keep reducing list indices. -/
theorem natOne_norm : @OfNat.ofNat ℕ 1 One.toOfNat1 = 1 := rfl

/-- C1: shared-subexpression gradient accumulation.  For a store holding a
leaf `a = 3` and the node `b = add(mul(a,a), a)`, the eagerly computed value
of `b` is `12`, and after `backward(b)` the gradient of `a` is `7 = 2*3 + 1`:
the contributions of the two downstream edges of `a` are summed, not
overwritten. -/
theorem C1_shared_subexpression_accumulation :
    gC1.dataAt 2 = 12 ∧ (gC1.backward ratPrims 2).gradAt 0 = some 7 := by
  constructor
  · norm_num [gC1, Graph.dataAt, Graph.nth, Graph.variable', Graph.mul_op, Graph.add_op,
      Graph.push_var, Op.forward, ratPrims, ratPow, defaultVD]
  · simp [gC1, Graph.backward, Graph.backward_single, buildTopo, Graph.setGrad, Graph.addGrad,
      Graph.dataAt, Graph.gradAt, Graph.nth, Graph.variable', Graph.mul_op, Graph.add_op,
      Graph.push_var, Op.forward, Op.backward, ratPrims, ratPow, defaultVD, natOne_norm]
    norm_num

/-- C4: derived operations built purely from `Add`/`Mul`/`Pow` plus a `-1`
leaf are correct: `subtract(5,3) = 2`; `divide(6,2) = 3`, and after
`backward` on the division node the gradient of `a = 6` is `1/2` and the
gradient of `b = 2` is `-3/2`. -/
theorem C4_derived_subtract_divide :
    gSub.dataAt 4 = 2 ∧ gDiv.dataAt 3 = 3 ∧
      (gDiv.backward ratPrims 3).gradAt 0 = some (1 / 2) ∧
      (gDiv.backward ratPrims 3).gradAt 1 = some (-(3 / 2)) := by
  refine ⟨?_, ?_⟩
  · norm_num [gSub, Graph.dataAt, Graph.nth, Graph.variable', Graph.mul_op, Graph.add_op,
      Graph.sub_op, Graph.neg_op, Graph.push_var, Op.forward, ratPrims, ratPow, defaultVD]
  · refine ⟨?_, ?_, ?_⟩ <;>
    · simp [gDiv, Graph.backward, Graph.backward_single, buildTopo, Graph.setGrad, Graph.addGrad,
        Graph.dataAt, Graph.gradAt, Graph.nth, Graph.variable', Graph.mul_op, Graph.add_op,
        Graph.div_op, Graph.pow_op, Graph.push_var, Op.forward, Op.backward, ratPrims, ratPow,
        defaultVD, natOne_norm]
      try norm_num

theorem addGrad_len (g : Graph F) (c : Nat) (d : F) : (g.addGrad c d).len = g.len := by
  simp [Graph.addGrad, Graph.len]

theorem gradAt_addGrad_self (g : Graph F) {c : Nat} (d : F) (hc : c < g.len) :
    (g.addGrad c d).gradAt c = some ((g.gradAt c).getD 0 + d) := by
  simp [Graph.addGrad, Graph.gradAt, Graph.nth, List.getD_eq_getElem?_getD,
    List.getElem?_set_self hc]

theorem gradAt_addGrad_other (g : Graph F) {c i : Nat} (d : F) (h : i ≠ c) :
    (g.addGrad c d).gradAt i = g.gradAt i := by
  simp [Graph.addGrad, Graph.gradAt, Graph.nth, List.getD_eq_getElem?_getD,
    List.getElem?_set_ne (Ne.symm h)]

/-- Left-folding `addGrad` over a list of (operand, contribution) pairs adds,
for every index, the sum of the contributions aimed at that index on top of
the gradient already stored there (absent read as `0`), and leaves every
other index untouched. -/
theorem foldl_addGrad_gradAt (ps : List (Nat × F)) (g : Graph F) (i : Nat)
    (hps : ∀ p ∈ ps, p.1 < g.len) :
    (ps.foldl (fun g' p => g'.addGrad p.1 p.2) g).gradAt i =
      if i ∈ ps.map Prod.fst then
        some ((g.gradAt i).getD 0 + ((ps.filter fun p => p.1 == i).map Prod.snd).sum)
      else g.gradAt i := by
  induction ps generalizing g with
  | nil => simp
  | cons p ps ih =>
    obtain ⟨c, d⟩ := p
    have hc : c < g.len := hps _ (List.mem_cons_self _ _)
    have hps' : ∀ q ∈ ps, q.1 < (g.addGrad c d).len := by
      intro q hq
      rw [addGrad_len]
      exact hps _ (List.mem_cons_of_mem _ hq)
    rw [List.foldl_cons, ih _ hps']
    by_cases hic : i = c
    · subst hic
      rw [gradAt_addGrad_self _ _ hc]
      by_cases him : i ∈ ps.map Prod.fst
      · rw [if_pos him, if_pos (by simp), List.filter_cons_of_pos (by simp)]
        simp [add_assoc]
      · have hnil : ps.filter (fun p => p.1 == i) = [] := by
          rw [List.filter_eq_nil_iff]
          intro q hq
          simp only [beq_iff_eq]
          intro hq1
          exact him (List.mem_map.mpr ⟨q, hq, hq1⟩)
        rw [if_neg him, if_pos (by simp), List.filter_cons_of_pos (by simp), hnil]
        simp
    · rw [gradAt_addGrad_other _ _ hic]
      have hmem : i ∈ ((c, d) :: ps).map Prod.fst ↔ i ∈ ps.map Prod.fst := by
        simp [hic]
      rw [List.filter_cons_of_neg (by simp [Ne.symm hic])]
      by_cases him : i ∈ ps.map Prod.fst
      · rw [if_pos him, if_pos (hmem.mpr him)]
      · rw [if_neg him, if_neg (fun hx => him (hmem.mp hx))]

/-- C2: backward catalog correctness.  The local-gradient formulas returned
by `Op::backward` are exactly the table's rows (Add passes the upstream
gradient to both operands; Multiply passes the other operand's value times
upstream; Power(k) passes `k * a^(k-1) * upstream`; ReLU passes upstream
when the node's output is positive and `0` otherwise; Exponential passes the
node's output value times upstream; NaturalLog passes `upstream / a`), and
`backward_single` is the left fold of `addGrad` over the operand/contribution
pairs, so each contribution is added on top of the operand's existing
gradient (absent read as `0`) — never overwriting it, and summing over
repeated operands. -/
theorem C2_backward_catalog (P : Prims F) (g : Graph F) (a : Nat)
    (hops : ∀ p ∈ g.contribs P a, p.1 < g.len) :
    (∀ (cd : List F) (d u : F), Op.Add.backward P cd d u = [u, u]) ∧
    (∀ (cd : List F) (d u : F),
      Op.Mul.backward P cd d u = [cd.getD 1 0 * u, cd.getD 0 0 * u]) ∧
    (∀ (k : F) (cd : List F) (d u : F),
      (Op.Pow k).backward P cd d u = [k * P.fpow (cd.getD 0 0) (k - 1) * u]) ∧
    (∀ (cd : List F) (d u : F),
      Op.ReLU.backward P cd d u = [if d > 0 then u else 0]) ∧
    (∀ (cd : List F) (d u : F), Op.Exp.backward P cd d u = [d * u]) ∧
    (∀ (cd : List F) (d u : F), Op.Log.backward P cd d u = [u / cd.getD 0 0]) ∧
    (g.backward_single P a =
      (g.contribs P a).foldl (fun g' p => g'.addGrad p.1 p.2) g) ∧
    (∀ i, (g.backward_single P a).gradAt i =
      if i ∈ (g.contribs P a).map Prod.fst then
        some ((g.gradAt i).getD 0 +
          (((g.contribs P a).filter fun p => p.1 == i).map Prod.snd).sum)
      else g.gradAt i) := by
  refine ⟨fun _ _ _ => rfl, fun _ _ _ => rfl, fun _ _ _ _ => rfl, fun _ _ _ => rfl,
    fun _ _ _ => rfl, fun _ _ _ => rfl, rfl, fun i => ?_⟩
  exact foldl_addGrad_gradAt (g.contribs P a) g i hops

/-- Witness for C2 at the root node of the concrete graph `gC1` (an `Add`
node whose operands are indices 1 and 0). -/
theorem C2_backward_catalog_witness :
    (∀ p ∈ gC1.contribs ratPrims 2, p.1 < gC1.len) ∧
      (gC1.backward_single ratPrims 2 =
        (gC1.contribs ratPrims 2).foldl (fun g' p => g'.addGrad p.1 p.2) gC1) :=
  ⟨by decide, (C2_backward_catalog ratPrims gC1 2 (by decide)).2.2.2.2.2.2.1⟩

/-- Setting an arena slot to a node with the same gradient-stripped content
does not change the gradient-stripped view of the arena. -/
theorem map_stripGrad_set (l : List (VariableData F)) (i : Nat) (v : VariableData F)
    (hv : stripGrad v = stripGrad (l.getD i defaultVD)) :
    (l.set i v).map stripGrad = l.map stripGrad := by
  apply List.ext_getElem?
  intro n
  rw [List.getElem?_map, List.getElem?_map, List.getElem?_set]
  by_cases hin : i = n
  · subst hin
    by_cases hlen : i < l.length
    · rw [if_pos rfl, if_pos hlen, List.getElem?_eq_getElem hlen]
      have h2 : l.getD i defaultVD = l[i] := List.getD_eq_getElem l defaultVD hlen
      simp only [Option.map_some']
      rw [hv, h2]
    · rw [if_pos rfl, if_neg hlen, List.getElem?_eq_none (Nat.le_of_not_lt hlen)]
  · rw [if_neg hin]

theorem strip_setGrad (g : Graph F) (i : Nat) (o : Option F) :
    (g.setGrad i o).vars.map stripGrad = g.vars.map stripGrad := by
  apply map_stripGrad_set
  rfl

theorem strip_addGrad (g : Graph F) (c : Nat) (d : F) :
    (g.addGrad c d).vars.map stripGrad = g.vars.map stripGrad := by
  apply map_stripGrad_set
  rfl

theorem strip_backward_single (P : Prims F) (g : Graph F) (a : Nat) :
    (g.backward_single P a).vars.map stripGrad = g.vars.map stripGrad := by
  show (((g.nth a).children.zip _).foldl (fun g' p => g'.addGrad p.1 p.2) g).vars.map stripGrad
      = g.vars.map stripGrad
  generalize ((g.nth a).children.zip _) = ps
  induction ps generalizing g with
  | nil => rfl
  | cons p ps ih => rw [List.foldl_cons, ih, strip_addGrad]

theorem strip_backward (P : Prims F) (g : Graph F) (r : Nat) :
    (g.backward P r).vars.map stripGrad = g.vars.map stripGrad := by
  have gen : ∀ (l : List Nat) (g1 : Graph F),
      (l.foldl (fun g' v => g'.backward_single P v) g1).vars.map stripGrad
        = g1.vars.map stripGrad := by
    intro l
    induction l with
    | nil => intro g1; rfl
    | cons v l ih =>
      intro g1
      rw [List.foldl_cons, ih, strip_backward_single]
  show ((buildTopo g (r + 1) r ([], [])).1.reverse.foldl (fun g' v => g'.backward_single P v)
      (g.setGrad r (some 1))).vars.map stripGrad = g.vars.map stripGrad
  rw [gen, strip_setGrad]

/-- Running `backward` changes only gradient fields, so zeroing afterwards
gives the same store as zeroing the input. -/
theorem zero_grad_backward (P : Prims F) (g : Graph F) (r : Nat) :
    (g.backward P r).zero_grad = g.zero_grad :=
  congrArg Graph.mk (strip_backward P g r)

/-- On a store whose gradients are all absent, `zero_grad` is the identity. -/
theorem zero_grad_of_clean (g : Graph F) (hclean : ∀ i, g.gradAt i = none) :
    g.zero_grad = g := by
  apply congrArg Graph.mk
  apply List.ext_getElem?
  intro n
  rw [List.getElem?_map]
  cases hn : g.vars[n]? with
  | none => rfl
  | some v =>
    have hv : g.gradAt n = v.grad := by
      simp [Graph.gradAt, Graph.nth, List.getD_eq_getElem?_getD, hn]
    have : v.grad = none := by rw [← hv, hclean]
    cases v
    simp_all [stripGrad]

/-- C8: reset and re-run reproducibility.  After `zero_grad` every gradient
reads absent while every value is unchanged; and for a store whose gradients
start absent (as every freshly constructed or freshly reset store does),
running `backward`, resetting, and running `backward` again from the same
root yields exactly the same store — in particular the same gradient at
every node — as the first pass. -/
theorem C8_reset_rerun (P : Prims F) (g : Graph F) (r : Nat)
    (hclean : ∀ i, g.gradAt i = none) :
    (∀ i, (g.zero_grad).gradAt i = none) ∧
    (∀ i, (g.zero_grad).dataAt i = g.dataAt i) ∧
    ((g.backward P r).zero_grad).backward P r = g.backward P r := by
  refine ⟨?_, ?_, ?_⟩
  · intro i
    simp only [Graph.zero_grad, Graph.gradAt, Graph.nth, List.getD_eq_getElem?_getD,
      List.getElem?_map]
    cases g.vars[i]? <;> rfl
  · intro i
    simp only [Graph.zero_grad, Graph.dataAt, Graph.gradAt, Graph.nth,
      List.getD_eq_getElem?_getD, List.getElem?_map]
    cases g.vars[i]? <;> rfl
  · rw [zero_grad_backward, zero_grad_of_clean g hclean]

/-- Witness for C8 on the concrete graph `gC1` (all gradients absent). -/
theorem C8_reset_rerun_witness :
    (∀ i, gC1.gradAt i = none) ∧
      ((∀ i, (gC1.zero_grad).gradAt i = none) ∧
        (∀ i, (gC1.zero_grad).dataAt i = gC1.dataAt i) ∧
        ((gC1.backward ratPrims 2).zero_grad).backward ratPrims 2
          = gC1.backward ratPrims 2) := by
  have hclean : ∀ i, gC1.gradAt i = none := by
    intro i
    match i with
    | 0 => rfl
    | 1 => rfl
    | 2 => rfl
    | n + 3 => rfl
  exact ⟨hclean, C8_reset_rerun ratPrims gC1 2 hclean⟩

theorem nth_append_lt (g : Graph F) (l : List (VariableData F)) (i : Nat) (h : i < g.len) :
    (Graph.mk (g.vars ++ l)).nth i = g.nth i := by
  simp only [Graph.nth, List.getD_eq_getElem?_getD, List.getElem?_append_left h]

theorem nth_append_self (g : Graph F) (v : VariableData F) :
    (Graph.mk (g.vars ++ [v])).nth g.len = v := by
  simp [Graph.nth, Graph.len, List.getD_eq_getElem?_getD,
    List.getElem?_append_right (le_refl _)]

theorem nth_variable_lt (g : Graph F) (d : F) (i : Nat) (h : i < g.len) :
    (g.variable' d).1.nth i = g.nth i :=
  nth_append_lt g _ i h

theorem nth_variable_self (g : Graph F) (d : F) :
    (g.variable' d).1.nth g.len = ⟨d, none, [], Op.Value⟩ :=
  nth_append_self g _

theorem nth_push_var_lt (P : Prims F) (g : Graph F) (ch : List Nat) (o : Op F) (i : Nat)
    (h : i < g.len) : (g.push_var P ch o).1.nth i = g.nth i :=
  nth_append_lt g _ i h

theorem children_push_var_self (P : Prims F) (g : Graph F) (ch : List Nat) (o : Op F) :
    ((g.push_var P ch o).1.nth g.len).children = ch := by
  rw [show (g.push_var P ch o).1.nth g.len = _ from nth_append_self g _]

omit [LinearOrderedField F] in
theorem len_variable (g : Graph F) (d : F) : (g.variable' d).1.len = g.len + 1 := by
  simp [Graph.variable', Graph.len]

theorem len_push_var (P : Prims F) (g : Graph F) (ch : List Nat) (o : Op F) :
    (g.push_var P ch o).1.len = g.len + 1 := by
  simp [Graph.push_var, Graph.len]

theorem wf_variable (g : Graph F) (d : F) (hg : Wf g) : Wf (g.variable' d).1 := by
  intro i hi c hc
  rw [len_variable] at hi
  by_cases hil : i < g.len
  · exact hg i hil c (by rwa [nth_variable_lt g d i hil] at hc)
  · have hieq : i = g.len := by omega
    subst hieq
    rw [nth_variable_self] at hc
    simp at hc

theorem wf_push_var (P : Prims F) (g : Graph F) (ch : List Nat) (o : Op F)
    (hg : Wf g) (hch : ∀ c ∈ ch, c < g.len) : Wf (g.push_var P ch o).1 := by
  intro i hi c hc
  rw [len_push_var] at hi
  by_cases hil : i < g.len
  · exact hg i hil c (by rwa [nth_push_var_lt P g ch o i hil] at hc)
  · have hieq : i = g.len := by omega
    subst hieq
    rw [children_push_var_self] at hc
    exact hch c hc

theorem wf_truncate (g : Graph F) (n : Nat) (hg : Wf g) : Wf (g.truncate n) := by
  intro i hi c hc
  have hlen : i < g.len := by
    simp only [Graph.truncate, Graph.len, List.length_take] at hi
    exact lt_of_lt_of_le hi (min_le_right _ _) |>.trans_le (le_refl _) |> fun h =>
      (Nat.lt_of_lt_of_le hi (Nat.min_le_right n g.vars.length))
  have hnth : (g.truncate n).nth i = g.nth i := by
    have hin : i < n := by
      simp only [Graph.truncate, Graph.len, List.length_take] at hi
      exact Nat.lt_of_lt_of_le hi (Nat.min_le_left n g.vars.length)
    simp [Graph.truncate, Graph.nth, List.getD_eq_getElem?_getD, List.getElem?_take, hin]
  rw [hnth] at hc
  exact hg i hlen c hc

theorem wf_applyGOp (P : Prims F) (g : Graph F) (o : GOp F)
    (hg : Wf g) (ho : validGOp g o) : Wf (applyGOp P g o) := by
  cases o with
  | leaf d => exact wf_variable g d hg
  | node ch op => exact wf_push_var P g ch op hg ho
  | neg a =>
    refine wf_push_var P _ [a, _] Op.Mul (wf_variable g _ hg) ?_
    intro c hc
    simp only [List.mem_cons, List.mem_singleton, List.not_mem_nil, or_false] at hc
    rw [len_variable]
    rcases hc with hc | hc <;> subst hc
    · exact Nat.lt_succ_of_lt ho
    · exact Nat.lt_succ_self _
  | sub a b =>
    obtain ⟨ha, hb⟩ := ho
    have hneg : Wf (g.neg_op P b).1 := by
      refine wf_push_var P _ [b, _] Op.Mul (wf_variable g _ hg) ?_
      intro c hc
      simp only [List.mem_cons, List.mem_singleton, List.not_mem_nil, or_false] at hc
      rw [len_variable]
      rcases hc with hc | hc <;> subst hc
      · exact Nat.lt_succ_of_lt hb
      · exact Nat.lt_succ_self _
    refine wf_push_var P _ [a, _] Op.Add hneg ?_
    intro c hc
    simp only [List.mem_cons, List.mem_singleton, List.not_mem_nil, or_false] at hc
    have hlen2 : (g.neg_op P b).1.len = g.len + 2 := by
      show ((g.variable' (-1)).1.mul_op P b _).1.len = g.len + 2
      rw [Graph.mul_op, len_push_var, len_variable]
    rcases hc with hc | hc <;> subst hc
    · omega
    · have hsnd : (g.neg_op P b).2 = g.len + 1 := by
        simp [Graph.neg_op, Graph.mul_op, Graph.push_var, Graph.variable', Graph.len]
      rw [hsnd, hlen2]
      omega
  | div a b =>
    obtain ⟨ha, hb⟩ := ho
    have hpow : Wf (g.pow_op P b (-1)).1 := by
      refine wf_push_var P _ [b] _ hg ?_
      intro c hc
      simp only [List.mem_singleton] at hc
      subst hc
      exact hb
    refine wf_push_var P _ [a, _] Op.Mul hpow ?_
    intro c hc
    simp only [List.mem_cons, List.mem_singleton, List.not_mem_nil, or_false] at hc
    have hlen2 : (g.pow_op P b (-1)).1.len = g.len + 1 := by
      rw [Graph.pow_op, len_push_var]
    rcases hc with hc | hc <;> subst hc
    · omega
    · have hsnd : (g.pow_op P b (-1)).2 = g.len := by
        simp [Graph.pow_op, Graph.push_var, Graph.len]
      rw [hsnd, hlen2]
      omega
  | trunc n => exact wf_truncate g n hg

/-- C6: acyclicity invariant.  Starting from any well-formed store, any
sequence of leaf creations, operation-node creations (including the derived
negate/subtract/divide constructors) and truncations, each satisfying its
in-range precondition, leaves the store well-formed: every node's operand
indices are strictly below its own index. -/
theorem C6_acyclicity (P : Prims F) (g : Graph F) (ops : List (GOp F))
    (hg : Wf g) (hv : validSeq P g ops) : Wf (applySeq P g ops) := by
  induction ops generalizing g with
  | nil => exact hg
  | cons o rest ih =>
    obtain ⟨h1, h2⟩ := hv
    exact ih (applyGOp P g o) (wf_applyGOp P g o hg h1) h2

/-- Witness for C6: from the empty store, create two leaves, an `Add` node,
a derived negation, a derived division, then truncate back to the two
leaves. -/
theorem C6_acyclicity_witness :
    (Wf (Graph.mk ([] : List (VariableData ℚ))) ∧
      validSeq ratPrims ⟨[]⟩
        [GOp.leaf 3, GOp.leaf 4, GOp.node [0, 1] Op.Add, GOp.neg 2, GOp.div 0 1,
         GOp.trunc 2]) ∧
    Wf (applySeq ratPrims ⟨[]⟩
        [GOp.leaf 3, GOp.leaf 4, GOp.node [0, 1] Op.Add, GOp.neg 2, GOp.div 0 1,
         GOp.trunc 2]) := by
  have h1 : Wf (Graph.mk ([] : List (VariableData ℚ))) := by
    intro i hi
    simp [Graph.len] at hi
  have h2 : validSeq ratPrims ⟨[]⟩
      [GOp.leaf 3, GOp.leaf 4, GOp.node [0, 1] Op.Add, GOp.neg 2, GOp.div 0 1,
       GOp.trunc 2] := by
    norm_num [validSeq, validGOp, applyGOp, Graph.variable', Graph.push_var, Graph.neg_op,
      Graph.sub_op, Graph.div_op, Graph.mul_op, Graph.add_op, Graph.pow_op, Graph.len,
      Graph.truncate]
  exact ⟨⟨h1, h2⟩, C6_acyclicity ratPrims ⟨[]⟩ _ h1 h2⟩

/-- In a well-formed arena, every node reachable from `u` has index at most
`u`: operand edges strictly decrease indices. -/
theorem Reach_le {g : Graph F} (hwf : Wf g) {u x : Nat} (h : Reach g u x) :
    u < g.len → x ≤ u := by
  induction h with
  | refl v => intro _; exact le_refl v
  | @step v c w hc _ ih =>
    intro hu
    have hcv : c < v := hwf v hu c hc
    exact le_trans (ih (lt_trans hcv hu)) (le_of_lt hcv)

/-- A set of nodes closed under operand edges contains everything reachable
from any of its members. -/
theorem closed_reach {g : Graph F} {topo : List Nat}
    (hcl : ∀ v ∈ topo, ∀ c ∈ (g.nth v).children, c ∈ topo) {v x : Nat}
    (h : Reach g v x) : v ∈ topo → x ∈ topo := by
  induction h with
  | refl v => exact id
  | @step v c w hc _ ih => exact fun hv => ih (hcl v hv c hc)

/-- Correctness of the child loop inside `build_topo`: folding the DFS over a
list of nodes all strictly below a bound `b` (with every already-gray node at
or above `b`) preserves the invariant, only appends to the order, leaves the
gray set unchanged, adds exactly nodes reachable from the list, and visits
everything reachable from the list. -/
theorem buildTopo_fold_spec (g : Graph F) (fuel : Nat)
    (hsingle : ∀ (v : Nat) (topo visited : List Nat),
      v < g.len → v < fuel → TopoInv g topo visited →
      (∀ x ∈ visited, x ∉ topo → v < x) →
      TopoPost g v topo visited
        (buildTopo g fuel v (topo, visited)).1 (buildTopo g fuel v (topo, visited)).2) :
    ∀ (cs : List Nat) (b : Nat) (topo visited : List Nat),
      (∀ c ∈ cs, c < b) → b ≤ g.len → b ≤ fuel → TopoInv g topo visited →
      (∀ x ∈ visited, x ∉ topo → b ≤ x) →
      ∀ st, st = cs.foldl (fun s c => buildTopo g fuel c s) (topo, visited) →
      TopoInv g st.1 st.2
      ∧ (∃ new, st.1 = topo ++ new)
      ∧ (∀ x ∈ visited, x ∈ st.2)
      ∧ (∀ x ∈ st.2, x ∉ st.1 → x ∈ visited ∧ x ∉ topo)
      ∧ (∀ x ∈ st.1, x ∈ topo ∨ ∃ c ∈ cs, Reach g c x)
      ∧ (∀ x ∈ st.2, x ∈ visited ∨ ∃ c ∈ cs, Reach g c x)
      ∧ (∀ c ∈ cs, ∀ x, Reach g c x → x ∈ st.2) := by
  intro cs
  induction cs with
  | nil =>
    intro b topo visited _ _ _ hinv hgray st hst
    rw [List.foldl_nil] at hst
    subst hst
    exact ⟨hinv, ⟨[], by simp⟩, fun x hx => hx, fun x hx hnx => ⟨hx, hnx⟩,
      fun x hx => Or.inl hx, fun x hx => Or.inl hx, by simp⟩
  | cons c cs ih =>
    intro b topo visited hcb hbl hbf hinv hgray st hst
    rw [List.foldl_cons] at hst
    have hc_b : c < b := hcb c (List.mem_cons_self c cs)
    have p1 := hsingle c topo visited (lt_of_lt_of_le hc_b hbl) (lt_of_lt_of_le hc_b hbf)
      hinv (fun x hx hnx => lt_of_lt_of_le hc_b (hgray x hx hnx))
    obtain ⟨inv1, ⟨new1, hnew1⟩, mono1, gray1, soundT1, soundV1, compl1, hcv1⟩ := p1
    have p2 := ih b (buildTopo g fuel c (topo, visited)).1 (buildTopo g fuel c (topo, visited)).2
      (fun c' h => hcb c' (List.mem_cons_of_mem _ h)) hbl hbf inv1
      (fun x hx hnx => by
        obtain ⟨hxv, hxt⟩ := gray1 x hx hnx
        exact hgray x hxv hxt)
      st (by rw [hst])
    obtain ⟨inv2, ⟨new2, hnew2⟩, mono2, gray2, soundT2, soundV2, compl2⟩ := p2
    refine ⟨inv2, ⟨new1 ++ new2, by rw [hnew2, hnew1, List.append_assoc]⟩,
      fun x hx => mono2 x (mono1 x hx), ?_, ?_, ?_, ?_⟩
    · intro x hx hnx
      obtain ⟨hxv, hxt⟩ := gray2 x hx hnx
      exact gray1 x hxv hxt
    · intro x hx
      rcases soundT2 x hx with h1 | ⟨c', hc', hr⟩
      · rcases soundT1 x h1 with h2 | hr
        · exact Or.inl h2
        · exact Or.inr ⟨c, List.mem_cons_self c cs, hr⟩
      · exact Or.inr ⟨c', List.mem_cons_of_mem _ hc', hr⟩
    · intro x hx
      rcases soundV2 x hx with h1 | ⟨c', hc', hr⟩
      · rcases soundV1 x h1 with h2 | hr
        · exact Or.inl h2
        · exact Or.inr ⟨c, List.mem_cons_self c cs, hr⟩
      · exact Or.inr ⟨c', List.mem_cons_of_mem _ hc', hr⟩
    · intro c' hc' x hr
      rcases List.mem_cons.mp hc' with h | h
      · subst h
        exact mono2 x (compl1 x hr)
      · exact compl2 c' h x hr

/-- Correctness of one `build_topo` call, by induction on the fuel.  For a
well-formed arena, fuel `v + 1` always suffices because operand indices
strictly decrease. -/
theorem buildTopo_single_spec (g : Graph F) (hwf : Wf g) :
    ∀ (fuel v : Nat) (topo visited : List Nat),
      v < g.len → v < fuel → TopoInv g topo visited →
      (∀ x ∈ visited, x ∉ topo → v < x) →
      TopoPost g v topo visited
        (buildTopo g fuel v (topo, visited)).1 (buildTopo g fuel v (topo, visited)).2 := by
  intro fuel
  induction fuel with
  | zero =>
    intro v topo visited _ hfuel
    exact absurd hfuel (Nat.not_lt_zero v)
  | succ f ih =>
    intro v topo visited hvlen hfuel hinv hgray
    by_cases hvis : v ∈ visited
    · have heq : buildTopo g (f + 1) v (topo, visited) = (topo, visited) := by
        simp [buildTopo, hvis]
      rw [heq]
      have hvt : v ∈ topo := by
        by_contra hnt
        exact lt_irrefl v (hgray v hvis hnt)
      refine ⟨hinv, ⟨[], by simp⟩, fun x hx => hx, fun x hx hnx => ⟨hx, hnx⟩,
        fun x hx => Or.inl hx, fun x hx => Or.inl hx, ?_, hvis⟩
      intro x hr
      exact hinv.sub x (closed_reach hinv.closed hr hvt)
    · have heq : buildTopo g (f + 1) v (topo, visited)
          = (((g.nth v).children.foldl (fun s c => buildTopo g f c s) (topo, v :: visited)).1
                ++ [v],
             ((g.nth v).children.foldl (fun s c => buildTopo g f c s) (topo, v :: visited)).2) := by
        simp [buildTopo, hvis]
      have hinv' : TopoInv g topo (v :: visited) :=
        ⟨hinv.nodup, fun x hx => List.mem_cons_of_mem _ (hinv.sub x hx), hinv.closed,
          hinv.ordered⟩
      have hgray' : ∀ x ∈ v :: visited, x ∉ topo → v ≤ x := by
        intro x hx hnx
        rcases List.mem_cons.mp hx with h | h
        · exact le_of_eq h.symm
        · exact le_of_lt (hgray x h hnx)
      have hvt : v ∉ topo := fun h => hvis (hinv.sub v h)
      have hch : ∀ c ∈ (g.nth v).children, c < v := hwf v hvlen
      have hfold := buildTopo_fold_spec g f ih (g.nth v).children v topo (v :: visited)
        hch (le_of_lt hvlen) (Nat.lt_succ_iff.mp hfuel) hinv' hgray' _ rfl
      obtain ⟨inv1, ⟨new1, hnew1⟩, mono1, gray1, soundT1, soundV1, compl1⟩ := hfold
      set st1 := (g.nth v).children.foldl (fun s c => buildTopo g f c s) (topo, v :: visited)
        with hst1
      have hchin : ∀ c ∈ (g.nth v).children, c ∈ st1.1 := by
        intro c hc
        have hcv : c ∈ st1.2 := compl1 c hc c (Reach.refl c)
        by_contra hnc
        obtain ⟨hcvv, hct⟩ := gray1 c hcv hnc
        rcases List.mem_cons.mp hcvv with h | h
        · exact absurd h (Nat.ne_of_lt (hch c hc))
        · exact absurd (hch c hc) (not_lt_of_lt (hgray c h hct))
      have hvn1 : v ∉ st1.1 := by
        intro hv1
        rcases soundT1 v hv1 with h | ⟨c, hc, hr⟩
        · exact hvt h
        · have hvc : v ≤ c := Reach_le hwf hr (lt_trans (hch c hc) hvlen)
          exact absurd (hch c hc) (not_lt_of_le hvc)
      rw [heq]
      refine ⟨⟨?_, ?_, ?_, ?_⟩, ⟨new1 ++ [v], by rw [hnew1, List.append_assoc]⟩,
        fun x hx => mono1 x (List.mem_cons_of_mem _ hx), ?_, ?_, ?_, ?_,
        mono1 v (List.mem_cons_self v _)⟩
      · rw [List.nodup_append]
        exact ⟨inv1.nodup, List.nodup_singleton v, by simpa using hvn1⟩
      · intro x hx
        rcases List.mem_append.mp hx with h | h
        · exact inv1.sub x h
        · rw [List.mem_singleton] at h
          subst h
          exact mono1 x (List.mem_cons_self x _)
      · intro w hw c hc
        rcases List.mem_append.mp hw with h | h
        · exact List.mem_append_left _ (inv1.closed w h c hc)
        · rw [List.mem_singleton] at h
          subst h
          exact List.mem_append_left _ (hchin c hc)
      · intro w hw c hc
        rcases List.mem_append.mp hw with h | h
        · have hcin : c ∈ st1.1 := inv1.closed w h c hc
          rw [List.indexOf_append_of_mem hcin, List.indexOf_append_of_mem h]
          exact inv1.ordered w h c hc
        · rw [List.mem_singleton] at h
          subst h
          have hcin : c ∈ st1.1 := hchin c hc
          rw [List.indexOf_append_of_mem hcin, List.indexOf_append_of_not_mem hvn1]
          exact lt_of_lt_of_le (List.indexOf_lt_length.mpr hcin) (Nat.le_add_right _ _)
      · intro x hx hnx
        have hx1 : x ∉ st1.1 := fun h => hnx (List.mem_append_left _ h)
        have hxv : x ≠ v := by
          intro h
          subst h
          exact hnx (List.mem_append_right _ (List.mem_singleton_self x))
        obtain ⟨hxvv, hxt⟩ := gray1 x hx hx1
        rcases List.mem_cons.mp hxvv with h | h
        · exact absurd h hxv
        · exact ⟨h, hxt⟩
      · intro x hx
        rcases List.mem_append.mp hx with h | h
        · rcases soundT1 x h with h1 | ⟨c, hc, hr⟩
          · exact Or.inl h1
          · exact Or.inr (Reach.step hc hr)
        · rw [List.mem_singleton] at h
          subst h
          exact Or.inr (Reach.refl x)
      · intro x hx
        rcases soundV1 x hx with h | ⟨c, hc, hr⟩
        · rcases List.mem_cons.mp h with h1 | h1
          · subst h1
            exact Or.inr (Reach.refl x)
          · exact Or.inl h1
        · exact Or.inr (Reach.step hc hr)
      · intro x hr
        cases hr with
        | refl => exact mono1 v (List.mem_cons_self v _)
        | step hc hr' => exact compl1 _ hc _ hr'

/-- C3: the backward driver's topological order.  For a well-formed arena and
an in-range root, the order computed by `build_topo` is duplicate-free,
contains exactly the nodes reachable from the root along operand edges, puts
every listed node strictly after each of its operands, and ends with the
root; `backward` then seeds the root's gradient with `1.0` and runs
`backward_single` over exactly the reverse of that order (root first). -/
theorem C3_topological_order (P : Prims F) (g : Graph F) (idx : Nat)
    (hwf : Wf g) (hidx : idx < g.len) :
    (buildTopo g (idx + 1) idx ([], [])).1.Nodup ∧
    (∀ x, x ∈ (buildTopo g (idx + 1) idx ([], [])).1 ↔ Reach g idx x) ∧
    (∀ v ∈ (buildTopo g (idx + 1) idx ([], [])).1, ∀ c ∈ (g.nth v).children,
      (buildTopo g (idx + 1) idx ([], [])).1.indexOf c
        < (buildTopo g (idx + 1) idx ([], [])).1.indexOf v) ∧
    (buildTopo g (idx + 1) idx ([], [])).1.getLast? = some idx ∧
    g.backward P idx =
      (buildTopo g (idx + 1) idx ([], [])).1.reverse.foldl
        (fun g' v => g'.backward_single P v) (g.setGrad idx (some 1)) := by
  have hinv0 : TopoInv g [] [] :=
    ⟨List.nodup_nil, by simp, by simp, by simp⟩
  have hspec := buildTopo_single_spec g hwf (idx + 1) idx [] [] hidx (Nat.lt_succ_self idx)
    hinv0 (by simp)
  obtain ⟨inv, ⟨new, hnew⟩, _, gray, soundT, _, compl, _⟩ := hspec
  refine ⟨inv.nodup, ?_, inv.ordered, ?_, rfl⟩
  · intro x
    constructor
    · intro hx
      rcases soundT x hx with h | h
      · exact absurd h (List.not_mem_nil x)
      · exact h
    · intro hr
      have hx2 : x ∈ (buildTopo g (idx + 1) idx ([], [])).2 := compl x hr
      by_contra hnx
      exact absurd (gray x hx2 hnx).1 (List.not_mem_nil x)
  · have heq : buildTopo g (idx + 1) idx (([] : List Nat), ([] : List Nat))
        = (((g.nth idx).children.foldl (fun s c => buildTopo g idx c s) ([], [idx])).1 ++ [idx],
           ((g.nth idx).children.foldl (fun s c => buildTopo g idx c s) ([], [idx])).2) := by
      simp [buildTopo]
    rw [heq]
    exact List.getLast?_concat _

/-- Witness for C3 on the concrete graph `gC1` rooted at node 2. -/
theorem C3_topological_order_witness :
    (Wf gC1 ∧ 2 < gC1.len) ∧
      (buildTopo gC1 3 2 ([], [])).1.Nodup ∧
      (buildTopo gC1 3 2 ([], [])).1.getLast? = some 2 :=
  ⟨⟨by decide, by decide⟩,
    (C3_topological_order ratPrims gC1 2 (by decide) (by decide)).1,
    (C3_topological_order ratPrims gC1 2 (by decide) (by decide)).2.2.2.1⟩

omit [LinearOrderedField F] in
theorem Ext.rfl' (g : Graph F) : Ext g g := ⟨[], (List.append_nil _).symm⟩

omit [LinearOrderedField F] in
theorem Ext.trans' {g1 g2 g3 : Graph F} (h12 : Ext g1 g2) (h23 : Ext g2 g3) : Ext g1 g3 := by
  obtain ⟨l1, h1⟩ := h12
  obtain ⟨l2, h2⟩ := h23
  exact ⟨l1 ++ l2, by rw [h2, h1, List.append_assoc]⟩

omit [LinearOrderedField F] in
theorem Ext.len_le {g g' : Graph F} (h : Ext g g') : g.len ≤ g'.len := by
  obtain ⟨l, hl⟩ := h
  simp [Graph.len, hl]

theorem Ext.nth_eq {g g' : Graph F} (h : Ext g g') {i : Nat} (hi : i < g.len) :
    g'.nth i = g.nth i := by
  obtain ⟨l, hl⟩ := h
  rw [show g' = Graph.mk (g.vars ++ l) from by cases g'; simpa using hl]
  exact nth_append_lt g l i hi

theorem Ext.dataAt_eq {g g' : Graph F} (h : Ext g g') {i : Nat} (hi : i < g.len) :
    g'.dataAt i = g.dataAt i := by
  rw [Graph.dataAt, Graph.dataAt, h.nth_eq hi]

omit [LinearOrderedField F] in
theorem ext_variable (g : Graph F) (d : F) : Ext g (g.variable' d).1 := ⟨_, rfl⟩

theorem ext_push_var (P : Prims F) (g : Graph F) (ch : List Nat) (o : Op F) :
    Ext g (g.push_var P ch o).1 := ⟨_, rfl⟩

theorem dataAt_push_var_self (P : Prims F) (g : Graph F) (ch : List Nat) (o : Op F) :
    (g.push_var P ch o).1.dataAt g.len = o.forward P (ch.map fun c => g.dataAt c) := by
  rw [Graph.dataAt, show (g.push_var P ch o).1.nth g.len = _ from nth_append_self g _]
  rfl

theorem dataAt_variable_self (g : Graph F) (d : F) : (g.variable' d).1.dataAt g.len = d := by
  rw [Graph.dataAt, nth_variable_self]

theorem add_op_value (P : Prims F) (g : Graph F) (a b : Nat) :
    (g.add_op P a b).2 = g.len ∧ (g.add_op P a b).1.len = g.len + 1 ∧
      Ext g (g.add_op P a b).1 ∧
      (g.add_op P a b).1.dataAt g.len = g.dataAt a + g.dataAt b := by
  refine ⟨rfl, len_push_var P g _ _, ext_push_var P g _ _, ?_⟩
  rw [Graph.add_op, dataAt_push_var_self]
  simp [Op.forward]

theorem exp_op_value (P : Prims F) (g : Graph F) (a : Nat) :
    (g.exp_op P a).2 = g.len ∧ (g.exp_op P a).1.len = g.len + 1 ∧
      Ext g (g.exp_op P a).1 ∧
      (g.exp_op P a).1.dataAt g.len = P.fexp (g.dataAt a) := by
  refine ⟨rfl, len_push_var P g _ _, ext_push_var P g _ _, ?_⟩
  rw [Graph.exp_op, dataAt_push_var_self]
  simp [Op.forward]

/-- Shape and value of a derived subtraction node: `sub_op` appends three
nodes and the returned handle (index `len + 2`) holds `a + b * (-1)`. -/
theorem sub_op_value (P : Prims F) (g : Graph F) {x m : Nat} (hx : x < g.len)
    (hm : m < g.len) :
    (g.sub_op P x m).2 = g.len + 2 ∧ (g.sub_op P x m).1.len = g.len + 3 ∧
      Ext g (g.sub_op P x m).1 ∧
      (g.sub_op P x m).1.dataAt (g.len + 2) = g.dataAt x + g.dataAt m * -1 := by
  have e1 : Ext g (g.variable' (-1)).1 := ext_variable g _
  have l1 : (g.variable' (-1)).1.len = g.len + 1 := len_variable g _
  have hm1 : m < (g.variable' (-1)).1.len := by omega
  have hx1 : x < (g.variable' (-1)).1.len := by omega
  have hlen1 : g.len < (g.variable' (-1)).1.len := by omega
  -- the multiplication node of the inner negation
  have hmulv : ((g.variable' (-1)).1.mul_op P m (g.variable' (-1)).2).1.dataAt
      ((g.variable' (-1)).1.len) = g.dataAt m * -1 := by
    rw [Graph.mul_op, dataAt_push_var_self]
    simp only [Op.forward, List.map_cons, List.map_nil, List.getD_cons_zero,
      List.getD_cons_succ]
    rw [show (g.variable' (-1)).2 = g.len from rfl, dataAt_variable_self,
      e1.dataAt_eq hm]
  have e2 : Ext (g.variable' (-1)).1 ((g.variable' (-1)).1.mul_op P m (g.variable' (-1)).2).1 :=
    ext_push_var P _ _ _
  have l2 : ((g.variable' (-1)).1.mul_op P m (g.variable' (-1)).2).1.len = g.len + 2 := by
    rw [Graph.mul_op, len_push_var, l1]
  have hneg2 : (g.neg_op P m).2 = g.len + 1 := by
    show ((g.variable' (-1)).1.mul_op P m (g.variable' (-1)).2).2 = g.len + 1
    rw [Graph.mul_op, Graph.push_var]
    simpa [Graph.len] using l1
  refine ⟨?_, ?_, ?_, ?_⟩
  · show ((g.neg_op P m).1.add_op P x (g.neg_op P m).2).2 = g.len + 2
    rw [Graph.add_op, Graph.push_var]
    simpa [Graph.len] using l2
  · show ((g.neg_op P m).1.add_op P x (g.neg_op P m).2).1.len = g.len + 3
    rw [Graph.add_op, len_push_var]
    rw [show (g.neg_op P m).1.len = g.len + 2 from l2]
  · exact (e1.trans' e2).trans' (ext_push_var P _ _ _)
  · show ((g.neg_op P m).1.add_op P x (g.neg_op P m).2).1.dataAt (g.len + 2)
      = g.dataAt x + g.dataAt m * -1
    have hlen2' : (g.neg_op P m).1.len = g.len + 2 := l2
    rw [Graph.add_op, show g.len + 2 = (g.neg_op P m).1.len from hlen2'.symm,
      dataAt_push_var_self]
    simp only [Op.forward, List.map_cons, List.map_nil, List.getD_cons_zero,
      List.getD_cons_succ]
    rw [hneg2]
    have hd1 : (g.neg_op P m).1.dataAt x = g.dataAt x := (e1.trans' e2).dataAt_eq hx
    have hd2 : (g.neg_op P m).1.dataAt (g.len + 1) = g.dataAt m * -1 := by
      show ((g.variable' (-1)).1.mul_op P m (g.variable' (-1)).2).1.dataAt (g.len + 1)
        = g.dataAt m * -1
      rw [← hmulv, l1]
    rw [hd1, hd2]

/-- Shape and value of a derived division node: `div_op` appends two nodes
and the returned handle (index `len + 1`) holds `a * fpow b (-1)`. -/
theorem div_op_value (P : Prims F) (g : Graph F) {a b : Nat} (ha : a < g.len) :
    (g.div_op P a b).2 = g.len + 1 ∧ (g.div_op P a b).1.len = g.len + 2 ∧
      Ext g (g.div_op P a b).1 ∧
      (g.div_op P a b).1.dataAt (g.len + 1) = g.dataAt a * P.fpow (g.dataAt b) (-1) := by
  have e1 : Ext g (g.pow_op P b (-1)).1 := ext_push_var P g _ _
  have l1 : (g.pow_op P b (-1)).1.len = g.len + 1 := len_push_var P g _ _
  have hpowv : (g.pow_op P b (-1)).1.dataAt g.len = P.fpow (g.dataAt b) (-1) := by
    rw [Graph.pow_op, dataAt_push_var_self]
    simp [Op.forward]
  have hpow2 : (g.pow_op P b (-1)).2 = g.len := rfl
  refine ⟨?_, ?_, ?_, ?_⟩
  · show ((g.pow_op P b (-1)).1.mul_op P a (g.pow_op P b (-1)).2).2 = g.len + 1
    rw [Graph.mul_op, Graph.push_var]
    simpa [Graph.len] using l1
  · show ((g.pow_op P b (-1)).1.mul_op P a (g.pow_op P b (-1)).2).1.len = g.len + 2
    rw [Graph.mul_op, len_push_var, l1]
  · exact e1.trans' (ext_push_var P _ _ _)
  · show ((g.pow_op P b (-1)).1.mul_op P a (g.pow_op P b (-1)).2).1.dataAt (g.len + 1)
      = g.dataAt a * P.fpow (g.dataAt b) (-1)
    rw [Graph.mul_op, show g.len + 1 = (g.pow_op P b (-1)).1.len from l1.symm,
      dataAt_push_var_self]
    simp only [Op.forward, List.map_cons, List.map_nil, List.getD_cons_zero,
      List.getD_cons_succ]
    rw [hpow2, e1.dataAt_eq ha, hpowv]

theorem map_dataAt_ext {g g' : Graph F} (h : Ext g g') (l : List Nat)
    (hl : ∀ e ∈ l, e < g.len) : l.map g'.dataAt = l.map g.dataAt :=
  List.map_congr_left fun e he => h.dataAt_eq (hl e he)

/-- Values and shape produced by the `exps` loop of softmax: starting from
any extension `gc` of the graph `g0` that holds the logits and the max leaf,
folding the subtract-then-exponentiate step over the logits appends nodes
whose values are `fexp (x + max * -1)` for the logits' values, in order. -/
theorem exps_fold_spec (P : Prims F) (g0 : Graph F) (m : Nat) :
    ∀ (xs : List Nat) (gc : Graph F) (acc : List Nat),
      (∀ x ∈ xs, x < g0.len) → m < g0.len → Ext g0 gc →
      (∀ e ∈ acc, e < gc.len) →
      ∀ st, st = xs.foldl (fun (a : Graph F × List Nat) x =>
          let rs := a.1.sub_op P x m
          let rexp := rs.1.exp_op P rs.2
          (rexp.1, a.2 ++ [rexp.2])) (gc, acc) →
      Ext gc st.1 ∧ (∀ e ∈ st.2, e < st.1.len) ∧
      st.2.map st.1.dataAt
        = acc.map gc.dataAt ++ xs.map fun x => P.fexp (g0.dataAt x + g0.dataAt m * -1) := by
  intro xs
  induction xs with
  | nil =>
    intro gc acc _ _ _ hacc st hst
    rw [List.foldl_nil] at hst
    subst hst
    exact ⟨Ext.rfl' gc, hacc, by simp⟩
  | cons x xs ih =>
    intro gc acc hxs hm hext hacc st hst
    rw [List.foldl_cons] at hst
    have hx' : x < gc.len := lt_of_lt_of_le (hxs x (List.mem_cons_self x xs)) hext.len_le
    have hm' : m < gc.len := lt_of_lt_of_le hm hext.len_le
    obtain ⟨hsub2, hsublen, hsubext, hsubval⟩ := sub_op_value P gc hx' hm'
    obtain ⟨hexp2, hexplen, hexpext, hexpval⟩ :=
      exp_op_value P (gc.sub_op P x m).1 (gc.sub_op P x m).2
    have hstep : Ext gc ((gc.sub_op P x m).1.exp_op P (gc.sub_op P x m).2).1 :=
      hsubext.trans' hexpext
    have hsteplen : ((gc.sub_op P x m).1.exp_op P (gc.sub_op P x m).2).1.len
        = gc.len + 4 := by
      rw [hexplen, hsublen]
    have hnewval : ((gc.sub_op P x m).1.exp_op P (gc.sub_op P x m).2).1.dataAt
        ((gc.sub_op P x m).1.len)
        = P.fexp (g0.dataAt x + g0.dataAt m * -1) := by
      rw [hexpval, hsub2, hsubval, hext.dataAt_eq (hxs x (List.mem_cons_self x xs)),
        hext.dataAt_eq hm]
    have haccb : ∀ e ∈ acc ++ [((gc.sub_op P x m).1.exp_op P (gc.sub_op P x m).2).2],
        e < ((gc.sub_op P x m).1.exp_op P (gc.sub_op P x m).2).1.len := by
      intro e he
      rcases List.mem_append.mp he with h | h
      · exact lt_of_lt_of_le (lt_of_lt_of_le (hacc e h) hsubext.len_le) hexpext.len_le
      · rw [List.mem_singleton] at h
        subst h
        rw [hexp2, hexplen]
        exact Nat.lt_succ_self _
    have hih := ih ((gc.sub_op P x m).1.exp_op P (gc.sub_op P x m).2).1
      (acc ++ [((gc.sub_op P x m).1.exp_op P (gc.sub_op P x m).2).2])
      (fun x' h => hxs x' (List.mem_cons_of_mem _ h)) hm (hext.trans' hstep) haccb st hst
    obtain ⟨hext2, hbound2, hval2⟩ := hih
    refine ⟨hstep.trans' hext2, hbound2, ?_⟩
    rw [hval2, List.map_append]
    have hmap : acc.map ((gc.sub_op P x m).1.exp_op P (gc.sub_op P x m).2).1.dataAt
        = acc.map gc.dataAt := map_dataAt_ext hstep acc hacc
    rw [hmap]
    have hsingle : ([((gc.sub_op P x m).1.exp_op P (gc.sub_op P x m).2).2].map
        ((gc.sub_op P x m).1.exp_op P (gc.sub_op P x m).2).1.dataAt)
        = [P.fexp (g0.dataAt x + g0.dataAt m * -1)] := by
      rw [List.map_singleton, hexp2, hnewval]
    rw [hsingle, List.map_cons, List.append_assoc, List.singleton_append]

/-- Value produced by the summation loop of softmax: folding `add_op` over a
list of handles accumulates the left-folded sum of their values. -/
theorem sum_fold_spec (P : Prims F) :
    ∀ (es : List Nat) (gc : Graph F) (s0 : Nat),
      (∀ e ∈ es, e < gc.len) → s0 < gc.len →
      ∀ st, st = es.foldl (fun (a : Graph F × Nat) e => a.1.add_op P a.2 e) (gc, s0) →
      Ext gc st.1 ∧ st.2 < st.1.len ∧
      st.1.dataAt st.2 = (es.map gc.dataAt).foldl (· + ·) (gc.dataAt s0) := by
  intro es
  induction es with
  | nil =>
    intro gc s0 _ hs0 st hst
    rw [List.foldl_nil] at hst
    subst hst
    exact ⟨Ext.rfl' gc, hs0, by simp⟩
  | cons e es ih =>
    intro gc s0 hes hs0 st hst
    rw [List.foldl_cons] at hst
    obtain ⟨hadd2, haddlen, haddext, haddval⟩ := add_op_value P gc s0 e
    have hih := ih (gc.add_op P s0 e).1 (gc.add_op P s0 e).2
      (fun e' h => lt_of_lt_of_le (lt_of_lt_of_le (hes e' (List.mem_cons_of_mem _ h))
        haddext.len_le) (le_refl _))
      (by rw [hadd2, haddlen]; exact Nat.lt_succ_self _) st hst
    obtain ⟨hext2, hlt2, hval2⟩ := hih
    refine ⟨haddext.trans' hext2, hlt2, ?_⟩
    rw [hval2, List.map_cons, List.foldl_cons]
    have h1 : (gc.add_op P s0 e).1.dataAt (gc.add_op P s0 e).2
        = gc.dataAt s0 + gc.dataAt e := by rw [hadd2, haddval]
    have h2 : es.map (gc.add_op P s0 e).1.dataAt = es.map gc.dataAt :=
      map_dataAt_ext haddext es fun e' h => hes e' (List.mem_cons_of_mem _ h)
    rw [h1, h2]

/-- Values produced by the output loop of softmax: folding the division step
appends nodes holding each exponential's value times `fpow sum (-1)`. -/
theorem outs_fold_spec (P : Prims F) (s : Nat) :
    ∀ (es : List Nat) (gc : Graph F) (acc : List Nat),
      (∀ e ∈ es, e < gc.len) → s < gc.len → (∀ o ∈ acc, o < gc.len) →
      ∀ st, st = es.foldl (fun (a : Graph F × List Nat) e =>
          let rd := a.1.div_op P e s
          (rd.1, a.2 ++ [rd.2])) (gc, acc) →
      Ext gc st.1 ∧
      st.2.map st.1.dataAt
        = acc.map gc.dataAt ++ es.map fun e => gc.dataAt e * P.fpow (gc.dataAt s) (-1) := by
  intro es
  induction es with
  | nil =>
    intro gc acc _ _ _ st hst
    rw [List.foldl_nil] at hst
    subst hst
    exact ⟨Ext.rfl' gc, by simp⟩
  | cons e es ih =>
    intro gc acc hes hs hacc st hst
    rw [List.foldl_cons] at hst
    have he' : e < gc.len := hes e (List.mem_cons_self e es)
    obtain ⟨hdiv2, hdivlen, hdivext, hdivval⟩ := div_op_value P gc he'
    have hih := ih (gc.div_op P e s).1 (acc ++ [(gc.div_op P e s).2])
      (fun e' h => lt_of_lt_of_le (hes e' (List.mem_cons_of_mem _ h)) hdivext.len_le)
      (lt_of_lt_of_le hs hdivext.len_le)
      (by
        intro o ho
        rcases List.mem_append.mp ho with h | h
        · exact lt_of_lt_of_le (hacc o h) hdivext.len_le
        · rw [List.mem_singleton] at h
          subst h
          rw [hdiv2, hdivlen]
          omega) st hst
    obtain ⟨hext2, hval2⟩ := hih
    refine ⟨hdivext.trans' hext2, ?_⟩
    rw [hval2, List.map_append]
    rw [map_dataAt_ext hdivext acc hacc]
    have hsingle : ([(gc.div_op P e s).2].map (gc.div_op P e s).1.dataAt)
        = [gc.dataAt e * P.fpow (gc.dataAt s) (-1)] := by
      rw [List.map_singleton, hdiv2, hdivval]
    rw [hsingle]
    have hmap2 : es.map (fun e' => (gc.div_op P e s).1.dataAt e'
          * P.fpow ((gc.div_op P e s).1.dataAt s) (-1))
        = es.map fun e' => gc.dataAt e' * P.fpow (gc.dataAt s) (-1) := by
      apply List.map_congr_left
      intro e' he'
      rw [hdivext.dataAt_eq (hes e' (List.mem_cons_of_mem _ he')), hdivext.dataAt_eq hs]
    rw [hmap2, List.map_cons, List.append_assoc, List.singleton_append]

/-- Bridge between the graph-building softmax and its pure value model: the
max leaf is inserted at index `len` with the fold-maximum of the logits'
values, and the output handles evaluate to `softmaxVals` of the logits'
values. -/
theorem softmax_values (P : Prims F) (g : Graph F) (logits : List Nat)
    (hne : logits ≠ []) (hl : ∀ l ∈ logits, l < g.len) :
    (g.softmax P logits).1.nth g.len = ⟨foldMaxData g logits, none, [], Op.Value⟩ ∧
    (g.softmax P logits).2.map (g.softmax P logits).1.dataAt
      = softmaxVals P (logits.map g.dataAt) := by
  have hlen1 : g.len < (g.variable' (foldMaxData g logits)).1.len := by
    rw [len_variable]
    omega
  have hext1 : Ext g (g.variable' (foldMaxData g logits)).1 := ext_variable g _
  -- stage A: the exponentials loop
  have hA := exps_fold_spec P (g.variable' (foldMaxData g logits)).1
    ((g.variable' (foldMaxData g logits)).2) logits
    (g.variable' (foldMaxData g logits)).1 []
    (fun x hx => lt_of_lt_of_le (hl x hx) (le_of_lt hlen1))
    (by rw [show (g.variable' (foldMaxData g logits)).2 = g.len from rfl]
        exact hlen1)
    (Ext.rfl' _) (by simp)
    (logits.foldl (fun (a : Graph F × List Nat) x =>
        let rs := a.1.sub_op P x ((g.variable' (foldMaxData g logits)).2)
        let rexp := rs.1.exp_op P rs.2
        (rexp.1, a.2 ++ [rexp.2])) ((g.variable' (foldMaxData g logits)).1, [])) rfl
  obtain ⟨hextA, hboundA, hvalsA⟩ := hA
  set re := logits.foldl (fun (a : Graph F × List Nat) x =>
      let rs := a.1.sub_op P x ((g.variable' (foldMaxData g logits)).2)
      let rexp := rs.1.exp_op P rs.2
      (rexp.1, a.2 ++ [rexp.2])) ((g.variable' (foldMaxData g logits)).1, []) with hre
  have hAvals : re.2.map re.1.dataAt
      = logits.map fun x => P.fexp (g.dataAt x + foldMaxData g logits * -1) := by
    rw [hvalsA]
    simp only [List.map_nil, List.nil_append]
    apply List.map_congr_left
    intro x hx
    rw [hext1.dataAt_eq (hl x hx),
      show (g.variable' (foldMaxData g logits)).2 = g.len from rfl, dataAt_variable_self]
  -- the exps list is nonempty
  obtain ⟨e0, rest, hre2⟩ : ∃ e0 rest, re.2 = e0 :: rest := by
    cases hcase : re.2 with
    | nil =>
      exfalso
      apply hne
      have := hAvals
      rw [hcase] at this
      cases hlog : logits with
      | nil => rfl
      | cons l ls =>
        rw [hlog] at this
        simp at this
    | cons e0 rest => exact ⟨e0, rest, rfl⟩
  have hboundA' : ∀ e ∈ re.2, e < re.1.len := hboundA
  -- stage B: the summation loop
  have hB := sum_fold_spec P rest re.1 e0
    (fun e h => hboundA' e (by rw [hre2]; exact List.mem_cons_of_mem _ h))
    (hboundA' e0 (by rw [hre2]; exact List.mem_cons_self _ _))
    (rest.foldl (fun (a : Graph F × Nat) e => a.1.add_op P a.2 e) (re.1, e0)) rfl
  obtain ⟨hextB, hltB, hvalB⟩ := hB
  set rsum := rest.foldl (fun (a : Graph F × Nat) e => a.1.add_op P a.2 e) (re.1, e0)
    with hrsum
  -- stage C: the output loop
  have hC := outs_fold_spec P rsum.2 re.2 rsum.1 []
    (fun e h => lt_of_lt_of_le (hboundA' e h) hextB.len_le) hltB (by simp)
    (re.2.foldl (fun (a : Graph F × List Nat) e =>
        let rd := a.1.div_op P e rsum.2
        (rd.1, a.2 ++ [rd.2])) (rsum.1, [])) rfl
  obtain ⟨hextC, hvalsC⟩ := hC
  set fin := re.2.foldl (fun (a : Graph F × List Nat) e =>
      let rd := a.1.div_op P e rsum.2
      (rd.1, a.2 ++ [rd.2])) (rsum.1, []) with hfin
  -- the computed softmax is exactly the staged chain
  have hsm0 : g.softmax P logits
      = (re.2.foldl (fun (a : Graph F × List Nat) e =>
          let rd := a.1.div_op P e
            ((match re.2 with
              | [] => (re.1, (0 : Nat))
              | e0 :: rest => rest.foldl (fun (a : Graph F × Nat) e => a.1.add_op P a.2 e)
                  (re.1, e0)).2)
          (rd.1, a.2 ++ [rd.2]))
        ((match re.2 with
          | [] => (re.1, (0 : Nat))
          | e0 :: rest => rest.foldl (fun (a : Graph F × Nat) e => a.1.add_op P a.2 e)
              (re.1, e0)).1, [])) := rfl
  rw [hre2] at hsm0
  simp only [] at hsm0
  rw [← hrsum, ← hre2] at hsm0
  rw [← hfin] at hsm0
  have hextAC : Ext (g.variable' (foldMaxData g logits)).1 fin.1 :=
    (hextA.trans' hextB).trans' hextC
  constructor
  · rw [hsm0]
    rw [hextAC.nth_eq hlen1]
    exact nth_variable_self g _
  · rw [hsm0, hvalsC]
    simp only [List.map_nil, List.nil_append]
    -- translate the output values through the stages
    have hmapE : re.2.map (fun e => rsum.1.dataAt e * P.fpow (rsum.1.dataAt rsum.2) (-1))
        = (re.2.map re.1.dataAt).map
            (fun v => v * P.fpow (rsum.1.dataAt rsum.2) (-1)) := by
      rw [List.map_map]
      apply List.map_congr_left
      intro e he
      simp only [Function.comp_apply]
      rw [hextB.dataAt_eq (hboundA' e he)]
    rw [hmapE]
    cases hlog : logits with
    | nil => exact absurd hlog hne
    | cons l0 ls =>
      have hmp : foldMaxData g logits = (ls.map g.dataAt).foldl max (g.dataAt l0) := by
        rw [foldMaxData, hlog]
        simp only [List.map_cons]
      have hAvals' : re.2.map re.1.dataAt
          = (l0 :: ls).map fun x =>
              P.fexp (g.dataAt x + ((ls.map g.dataAt).foldl max (g.dataAt l0)) * -1) := by
        rw [hAvals, hmp, hlog]
      have hAconsed := hAvals'
      rw [hre2, List.map_cons, List.map_cons] at hAconsed
      obtain ⟨hhead, htail⟩ := List.cons_eq_cons.mp hAconsed
      have hSval : rsum.1.dataAt rsum.2
          = ((ls.map g.dataAt).map fun x =>
              P.fexp (x + ((ls.map g.dataAt).foldl max (g.dataAt l0)) * -1)).foldl (· + ·)
            (P.fexp (g.dataAt l0 + ((ls.map g.dataAt).foldl max (g.dataAt l0)) * -1)) := by
        rw [hvalB, htail, hhead, List.map_map]
        rfl
      rw [hAvals', hSval]
      simp only [softmaxVals, List.map_cons, List.map_map]
      rfl

theorem foldl_add_eq_sum (l : List F) : ∀ a : F, l.foldl (· + ·) a = a + l.sum := by
  induction l with
  | nil => intro a; simp
  | cons b l ih =>
    intro a
    rw [List.foldl_cons, ih, List.sum_cons]
    ring

theorem sum_map_mul_const (es : List F) (C : F) : (es.map (· * C)).sum = es.sum * C := by
  induction es with
  | nil => simp
  | cons e es ih =>
    rw [List.map_cons, List.sum_cons, List.sum_cons, ih]
    ring

/-- The softmax output distribution sums to exactly `1` in the idealized
field model, provided the exponential primitive is strictly positive and
`fpow _ (-1)` inverts positive values. -/
theorem softmaxVals_sum (P : Prims F) (xs : List F) (hne : xs ≠ [])
    (hpos : ∀ x : F, 0 < P.fexp x) (hpow : ∀ x : F, 0 < x → P.fpow x (-1) = x⁻¹) :
    (softmaxVals P xs).sum = 1 := by
  cases xs with
  | nil => exact absurd rfl hne
  | cons x0 rest =>
    simp only [softmaxVals, List.map_cons]
    have hs : (rest.map fun x => P.fexp (x + rest.foldl max x0 * -1)).foldl (· + ·)
        (P.fexp (x0 + rest.foldl max x0 * -1))
        = (P.fexp (x0 + rest.foldl max x0 * -1)
            :: rest.map fun x => P.fexp (x + rest.foldl max x0 * -1)).sum := by
      rw [foldl_add_eq_sum, List.sum_cons]
    have hpos' : 0 < (P.fexp (x0 + rest.foldl max x0 * -1)
        :: rest.map fun x => P.fexp (x + rest.foldl max x0 * -1)).sum := by
      rw [List.sum_cons]
      have h1 : 0 < P.fexp (x0 + rest.foldl max x0 * -1) := hpos _
      have h2 : 0 ≤ (rest.map fun x => P.fexp (x + rest.foldl max x0 * -1)).sum := by
        apply List.sum_nonneg
        intro y hy
        obtain ⟨x, _, hx⟩ := List.mem_map.mp hy
        rw [← hx]
        exact le_of_lt (hpos _)
      linarith
    rw [List.sum_cons, sum_map_mul_const, foldl_add_eq_sum]
    rw [List.sum_cons] at hpos'
    rw [hpow _ hpos', ← add_mul, mul_inv_cancel₀ (ne_of_gt hpos')]

theorem foldl_max_map_add (c : F) (l : List F) :
    ∀ a : F, (l.map (· + c)).foldl max (a + c) = l.foldl max a + c := by
  induction l with
  | nil => intro a; rfl
  | cons b l ih =>
    intro a
    rw [List.map_cons, List.foldl_cons, List.foldl_cons, max_add_add_right, ih]

/-- Adding the same constant to every input leaves the softmax output
distribution unchanged (the max shifts by the same constant, so the shifted
exponentials are identical). -/
theorem softmaxVals_shift (P : Prims F) (xs : List F) (c : F) :
    softmaxVals P (xs.map (· + c)) = softmaxVals P xs := by
  cases xs with
  | nil => rfl
  | cons x0 rest =>
    simp only [List.map_cons, softmaxVals]
    rw [foldl_max_map_add c rest x0]
    have hhead : P.fexp (x0 + c + (rest.foldl max x0 + c) * -1)
        = P.fexp (x0 + rest.foldl max x0 * -1) := by
      congr 1
      ring
    have htail : (rest.map (· + c)).map (fun x => P.fexp (x + (rest.foldl max x0 + c) * -1))
        = rest.map fun x => P.fexp (x + rest.foldl max x0 * -1) := by
      rw [List.map_map]
      apply List.map_congr_left
      intro x _
      simp only [Function.comp_apply]
      congr 1
      ring
    rw [hhead, htail]

/-- C9: softmax properties.  For every non-empty list of in-range logit
handles: the maximum logit value is inserted as a leaf at index `len` (and
each logit is shifted by its negation before exponentiating, the shifted
exponentials being divided by their sum, per `softmax_values`); the output
values sum to exactly `1` in the idealized field model; and shifting all
input logit values by any constant leaves the output values unchanged. -/
theorem C9_softmax_properties (P : Prims F) (g : Graph F) (logits : List Nat)
    (hne : logits ≠ []) (hl : ∀ l ∈ logits, l < g.len)
    (hpos : ∀ x : F, 0 < P.fexp x)
    (hpow : ∀ x : F, 0 < x → P.fpow x (-1) = x⁻¹) :
    (g.softmax P logits).1.nth g.len = ⟨foldMaxData g logits, none, [], Op.Value⟩ ∧
    ((g.softmax P logits).2.map (g.softmax P logits).1.dataAt).sum = 1 ∧
    ∀ (g2 : Graph F) (ls2 : List Nat) (c : F),
      (∀ l ∈ ls2, l < g2.len) →
      ls2.map g2.dataAt = (logits.map g.dataAt).map (· + c) →
      (g2.softmax P ls2).2.map (g2.softmax P ls2).1.dataAt
        = (g.softmax P logits).2.map (g.softmax P logits).1.dataAt := by
  obtain ⟨hleaf, hvals⟩ := softmax_values P g logits hne hl
  refine ⟨hleaf, ?_, ?_⟩
  · rw [hvals]
    exact softmaxVals_sum P _ (by simpa using hne) hpos hpow
  · intro g2 ls2 c hl2 hshift
    have hne2 : ls2 ≠ [] := by
      intro h
      subst h
      rw [List.map_nil] at hshift
      cases hlog : logits with
      | nil => exact hne hlog
      | cons l ls =>
        rw [hlog] at hshift
        simp at hshift
    obtain ⟨_, hvals2⟩ := softmax_values P g2 ls2 hne2 hl2
    rw [hvals2, hvals, hshift, softmaxVals_shift]

/-- Witness for C9 on a concrete rational store holding logits `1` and `2`,
with a strictly positive stand-in exponential `x ↦ 1 + x²` and the rational
power primitive (which inverts at exponent `-1`). -/
theorem C9_softmax_properties_witness :
    ((([0, 1] : List Nat) ≠ []
      ∧ (∀ l ∈ ([0, 1] : List Nat),
          l < (Graph.mk [⟨1, none, [], Op.Value⟩, ⟨2, none, [], Op.Value⟩] : Graph ℚ).len)
      ∧ (∀ x : ℚ, 0 < ratPrims.fexp x)
      ∧ (∀ x : ℚ, 0 < x → ratPrims.fpow x (-1) = x⁻¹))) ∧
    (((Graph.mk [⟨1, none, [], Op.Value⟩, ⟨2, none, [], Op.Value⟩] : Graph ℚ).softmax
        ratPrims [0, 1]).2.map
      ((Graph.mk [⟨1, none, [], Op.Value⟩, ⟨2, none, [], Op.Value⟩] : Graph ℚ).softmax
        ratPrims [0, 1]).1.dataAt).sum = 1 := by
  have hne : ([0, 1] : List Nat) ≠ [] := by decide
  have hl : ∀ l ∈ ([0, 1] : List Nat),
      l < (Graph.mk [⟨1, none, [], Op.Value⟩, ⟨2, none, [], Op.Value⟩] : Graph ℚ).len := by
    decide
  have hpos : ∀ x : ℚ, 0 < ratPrims.fexp x := by
    intro x
    show (0 : ℚ) < 1 + x * x
    nlinarith [mul_self_nonneg x]
  have hpow : ∀ x : ℚ, 0 < x → ratPrims.fpow x (-1) = x⁻¹ := by
    intro x _
    show ratPow x (-1) = x⁻¹
    rw [ratPow]
    norm_num
  exact ⟨⟨hne, hl, hpos, hpow⟩,
    (C9_softmax_properties ratPrims
      (Graph.mk [⟨1, none, [], Op.Value⟩, ⟨2, none, [], Op.Value⟩]) [0, 1]
      hne hl hpos hpow).2.1⟩

/-- C5: node structure of the derived operations.  `neg_op` appends exactly a
fresh `-1` leaf and then a `Mul` node; `sub_op` appends the `-1` leaf, a
`Mul` and an `Add`; `div_op` appends a `Pow (-1)` node and a `Mul`; and the
operation-tag type is closed over exactly the seven catalog tags, so no
Subtract/Negate/Divide tag can ever be stored. -/
theorem C5_derived_node_structure (P : Prims F) (g : Graph F) (a b : Nat) :
    ((g.neg_op P a).1.len = g.len + 2
      ∧ (g.neg_op P a).1.vars.map VariableData.op
          = g.vars.map VariableData.op ++ [Op.Value, Op.Mul]
      ∧ (g.neg_op P a).1.nth g.len = ⟨-1, none, [], Op.Value⟩
      ∧ ((g.neg_op P a).1.nth (g.len + 1)).children = [a, g.len]
      ∧ ((g.neg_op P a).1.nth (g.len + 1)).op = Op.Mul) ∧
    ((g.sub_op P a b).1.len = g.len + 3
      ∧ (g.sub_op P a b).1.vars.map VariableData.op
          = g.vars.map VariableData.op ++ [Op.Value, Op.Mul, Op.Add]
      ∧ (g.sub_op P a b).1.nth g.len = ⟨-1, none, [], Op.Value⟩
      ∧ ((g.sub_op P a b).1.nth (g.len + 2)).children = [a, g.len + 1]) ∧
    ((g.div_op P a b).1.len = g.len + 2
      ∧ (g.div_op P a b).1.vars.map VariableData.op
          = g.vars.map VariableData.op ++ [Op.Pow (-1), Op.Mul]
      ∧ ((g.div_op P a b).1.nth g.len).children = [b]
      ∧ ((g.div_op P a b).1.nth (g.len + 1)).children = [a, g.len]) ∧
    (∀ o : Op F, o = Op.Value ∨ o = Op.Add ∨ o = Op.Mul ∨ (∃ k, o = Op.Pow k)
      ∨ o = Op.ReLU ∨ o = Op.Exp ∨ o = Op.Log) := by
  refine ⟨?_, ?_, ?_, ?_⟩
  · refine ⟨?_, ?_, ?_, ?_, ?_⟩ <;>
      simp [Graph.neg_op, Graph.mul_op, Graph.variable', Graph.push_var, Graph.len, Graph.nth,
        List.append_assoc, List.getD_eq_getElem?_getD, List.getElem?_append_right,
        List.getElem_append_right, Nat.add_sub_cancel_left]
  · refine ⟨?_, ?_, ?_, ?_⟩ <;>
      simp [Graph.sub_op, Graph.neg_op, Graph.add_op, Graph.mul_op, Graph.variable',
        Graph.push_var, Graph.len, Graph.nth, List.append_assoc, List.getD_eq_getElem?_getD,
        List.getElem?_append_right, List.getElem_append_right, Nat.add_sub_cancel_left]
  · refine ⟨?_, ?_, ?_, ?_⟩ <;>
      simp [Graph.div_op, Graph.pow_op, Graph.mul_op, Graph.push_var, Graph.len, Graph.nth,
        List.append_assoc, List.getD_eq_getElem?_getD, List.getElem?_append_right,
        List.getElem_append_right, Nat.add_sub_cancel_left]
  · intro o
    cases o <;> simp

/-- C7: truncation postconditions.  For a checkpoint at most the current
size, `truncate` shrinks the store to exactly the checkpoint, leaves every
retained node (value, gradient, operands, operation) untouched, and the next
node appended by either constructor receives index exactly `checkpoint`. -/
theorem C7_truncate_postconditions (g : Graph F) (ck : Nat) (h : ck ≤ g.len) :
    (g.truncate ck).len = ck ∧
    (∀ i, i < ck → ((g.truncate ck).vars)[i]? = g.vars[i]?) ∧
    (∀ d : F, ((g.truncate ck).variable' d).2 = ck) ∧
    (∀ (P : Prims F) (children : List Nat) (op : Op F),
        ((g.truncate ck).push_var P children op).2 = ck) := by
  have hlen : (g.truncate ck).len = ck := by
    simp [Graph.truncate, Graph.len]
    exact h
  refine ⟨hlen, ?_, ?_, ?_⟩
  · intro i hi
    simp [Graph.truncate, List.getElem?_take, hi]
  · intro d
    simpa [Graph.variable', Graph.len] using hlen
  · intro P children op
    simpa [Graph.push_var, Graph.len] using hlen

/-- Witness for C7 at a concrete store: truncating the three-node graph
`gC1` at checkpoint 2. -/
theorem C7_truncate_postconditions_witness :
    (2 ≤ gC1.len) ∧
      ((gC1.truncate 2).len = 2 ∧
        (∀ i, i < 2 → ((gC1.truncate 2).vars)[i]? = gC1.vars[i]?) ∧
        (∀ d : ℚ, ((gC1.truncate 2).variable' d).2 = 2) ∧
        (∀ (P : Prims ℚ) (children : List Nat) (op : Op ℚ),
            ((gC1.truncate 2).push_var P children op).2 = 2)) :=
  ⟨by decide, C7_truncate_postconditions gC1 2 (by decide)⟩

omit [LinearOrderedField F] in
/-- C10: oversized truncation is a silent no-op.  When `len` is at least the
current size, `truncate(len)` leaves the store entirely unchanged (so the
resulting size is the old size, not `len`), and no failure occurs. -/
theorem C10_truncate_oversized_noop (g : Graph F) (n : Nat) (h : g.len ≤ n) :
    g.truncate n = g ∧ (g.truncate n).len = g.len := by
  have : g.truncate n = g := by
    simp [Graph.truncate, List.take_of_length_le h]
  exact ⟨this, by rw [this]⟩

/-- Witness for C10 at a concrete store: truncating the three-node graph
`gC1` at length 5 changes nothing. -/
theorem C10_truncate_oversized_noop_witness :
    (gC1.len ≤ 5) ∧ (gC1.truncate 5 = gC1 ∧ (gC1.truncate 5).len = gC1.len) :=
  ⟨by decide, C10_truncate_oversized_noop gC1 5 (by decide)⟩

end Backprop
